import Mathlib

/-!
Shallow embedding of the two numerical kernels of this repository:

* `calculate_spectrals_c` — the single-degree-of-freedom oscillator response
  integrator.  Two variants exist in the sources: the current one
  (`src/src/gmprocess/metrics/cfuncs.c`), which takes the sample interval `dt`
  directly, and the legacy one (`src/gmprocess/metrics/cfuncs.c`), which takes
  a `times` array and subdivides each interval into `ns` sub-steps.
* `konno_ohmachi_c` — the Konno-Ohmachi spectral smoother
  (`src/gmprocess/waveform_processing/smoothing/smoothing.c`).

C `double` arithmetic is embedded as exact real arithmetic; the C `NAN`
marker written into `ko_smooth` is embedded as `Option.none`.  Caller-owned
buffers become functions `ℕ → ℝ` updated with `Function.update`, so that
frame effects (which indices a call writes) are visible in the model.
-/

namespace GMP

/-- Truncation toward zero, the semantics of the C cast `(int)` applied to a
`double` (C17 6.3.1.4: the fractional part is discarded). -/
noncomputable def truncR (x : ℝ) : ℤ := if 0 ≤ x then ⌊x⌋ else ⌈x⌉

/-- The per-call constants both variants of `calculate_spectrals_c` compute
before entering their loop. -/
structure OscConsts where
  w : ℝ
  wd : ℝ
  dt : ℝ
  sine : ℝ
  cosine : ℝ
  w2 : ℝ
  w2i : ℝ
  wdi : ℝ
  dw : ℝ
  ddtw3 : ℝ

/-- Constants as computed at the top of both C variants (with `dt` already the
effective step): `w = 2π/period`, `wd = sqrt(1 - d*d) * w`,
`e = exp(-1*d*w*dt)`, `sine = e*sin(wd*dt)`, `cosine = e*cos(wd*dt)`,
`w2 = w*w`, `w3 = w2*w`, `w2i = 1/w2`, `wdi = 1/wd`, `dw = d*w`,
`ddtw3 = 2*d/(dt*w3)`. -/
noncomputable def mkConsts (dt period damping : ℝ) : OscConsts :=
  let w : ℝ := 2 * Real.pi / period
  let d := damping
  let wd := Real.sqrt (1 - d * d) * w
  let e := Real.exp (-1 * d * w * dt)
  let sine := e * Real.sin (wd * dt)
  let cosine := e * Real.cos (wd * dt)
  let w2 := w * w
  let w3 := w2 * w
  { w := w, wd := wd, dt := dt, sine := sine, cosine := cosine, w2 := w2,
    w2i := 1.0 / w2, wdi := 1.0 / wd, dw := d * w, ddtw3 := 2 * d / (dt * w3) }

/-- One step's three outputs. -/
structure OscOut where
  sdis : ℝ
  svel : ℝ
  sacc : ℝ

/-- The loop body shared by both variants (and by the `k = 0` block, which is
the same computation with zero previous state): given previous displacement
`pd`, previous velocity `pv`, current forcing `g` and forcing increment `dug`,
produce the step's `sdis`, `svel`, `sacc`. -/
noncomputable def oscStep (c : OscConsts) (pd pv g dug : ℝ) : OscOut :=
  let gw2i := g * c.w2i
  let dugw2i := dug * c.w2i
  let dugw2idt := dugw2i / c.dt
  let b := pd + gw2i - c.ddtw3 * dug
  let a := c.wdi * pv + c.dw * c.wdi * b + c.wdi * dugw2idt
  let sdis := a * c.sine + b * c.cosine + c.ddtw3 * dug - gw2i - dugw2i
  let svel := a * (c.wd * c.cosine - c.dw * c.sine) -
    b * (c.wd * c.sine + c.dw * c.cosine) - dugw2idt
  let sacc := -2 * c.dw * svel - c.w2 * sdis
  { sdis := sdis, svel := svel, sacc := sacc }

/-- Closed form of the recursion: the values the loop stores at index `k`,
as a function of `k`, for forcing `g` and forcing increment `dug`
(`g k = acc[k]`; `dug k = acc[k+1] - acc[k]`, divided by `ns` in the legacy
variant).  Index `0` starts from zero previous state. -/
noncomputable def oscOut (c : OscConsts) (g dug : ℕ → ℝ) : ℕ → OscOut
  | 0 => oscStep c 0 0 (g 0) (dug 0)
  | k + 1 =>
    oscStep c (oscOut c g dug k).sdis (oscOut c g dug k).svel (g (k + 1)) (dug (k + 1))

/-- The caller-owned output buffers. -/
structure Bufs where
  sacc : ℕ → ℝ
  svel : ℕ → ℝ
  sdis : ℕ → ℝ

/-- One iteration's effect on the buffers: compute the step from `pd`, `pv`
and write the three results at index `k`. -/
noncomputable def oscWrite (c : OscConsts) (g dug : ℕ → ℝ) (k : ℕ) (pd pv : ℝ)
    (B : Bufs) : Bufs :=
  let o := oscStep c pd pv (g k) (dug k)
  { sacc := Function.update B.sacc k o.sacc,
    svel := Function.update B.svel k o.svel,
    sdis := Function.update B.sdis k o.sdis }

/-- The `for (k = ...; ...; k++)` loop of both variants: run `n` iterations
starting at index `k`, each reading the previous state from `sdis[k-1]`,
`svel[k-1]` in the buffers. -/
noncomputable def oscLoop (c : OscConsts) (g dug : ℕ → ℝ) :
    ℕ → ℕ → Bufs → Bufs
  | 0, _, B => B
  | n + 1, k, B =>
    oscLoop c g dug n (k + 1) (oscWrite c g dug k (B.sdis (k - 1)) (B.svel (k - 1)) B)

/-- The whole body after the constants: the unconditional `k = 0` block with
zero previous state, then the loop `for (k = 1; k < np - 1; k++)`
(`np - 2` iterations). -/
noncomputable def runOsc (c : OscConsts) (g dug : ℕ → ℝ) (np : ℕ) (B : Bufs) : Bufs :=
  oscLoop c g dug (np - 2) 1 (oscWrite c g dug 0 0 0 B)

namespace Current

/-- The current variant, `src/src/gmprocess/metrics/cfuncs.c`: takes `dt`
directly; forcing increment `dug = acc[k+1] - acc[k]`. -/
noncomputable def calculate_spectrals_c (acc : ℕ → ℝ) (np : ℕ)
    (dt period damping : ℝ) (sacc svel sdis : ℕ → ℝ) : Bufs :=
  runOsc (mkConsts dt period damping) acc (fun k => acc (k + 1) - acc k) np
    { sacc := sacc, svel := svel, sdis := sdis }

end Current

namespace Legacy

/-- The legacy sub-step count, line 22 of `src/gmprocess/metrics/cfuncs.c`:
`ns = (int)(10. * dt_in / period - 0.01) + 1.0` (the C cast truncates toward
zero). -/
noncomputable def nsub (dt_in period : ℝ) : ℝ :=
  (truncR (10 * dt_in / period - 0.01) : ℝ) + 1.0

/-- The legacy variant, `src/gmprocess/metrics/cfuncs.c`: takes the `times`
array, derives `dt_in = times[1] - times[0]`, subdivides with `ns`, uses the
effective step `dt = dt_in / ns` in each constant, and the forcing increment
`dug = (acc[k+1] - acc[k]) / ns`. -/
noncomputable def calculate_spectrals_c (times acc : ℕ → ℝ) (np : ℕ)
    (period damping : ℝ) (sacc svel sdis : ℕ → ℝ) : Bufs :=
  let dt_in := times 1 - times 0
  let ns := nsub dt_in period
  let dt := dt_in / ns
  runOsc (mkConsts dt period damping) acc (fun k => (acc (k + 1) - acc k) / ns) np
    { sacc := sacc, svel := svel, sdis := sdis }

end Legacy

/-! ### Konno-Ohmachi smoother -/

/-- `max_ratio = pow(10.0, 3.0 / bandwidth)` (line 21 of `smoothing.c`). -/
noncomputable def ratioMax (bandwidth : ℝ) : ℝ := (10 : ℝ) ^ ((3 : ℝ) / bandwidth)

/-- `min_ratio = 1.0 / max_ratio` (line 22 of `smoothing.c`). -/
noncomputable def ratioMin (bandwidth : ℝ) : ℝ := 1.0 / ratioMax bandwidth

/-- The inner `for (j ...)` loop of `konno_ohmachi_c` for one target frequency
`fc`: accumulate `(total, window_total)` over the pairs `(freqs[j], spec[j])`,
`j = 0 .. np-1`, skipping a pair when `freq < 1e-6` or its ratio to `fc` falls
outside `[min_ratio, max_ratio]`; a near-exact match gets window `1.0`, any
other kept pair gets `sin(x)/x` squared twice, `x = bandwidth * log10(frat)`. -/
noncomputable def koStep (spec freqs : ℕ → ℝ) (bandwidth fc : ℝ) (tw : ℝ × ℝ)
    (j : ℕ) : ℝ × ℝ :=
  let freq := freqs j
  let frat := freq / fc
  if freq < 1e-6 ∨ frat > ratioMax bandwidth ∨ frat < ratioMin bandwidth then
    tw
  else
    let window :=
      if |freq - fc| < 1e-6 then 1.0
      else
        let x := bandwidth * Real.logb 10 frat
        let w0 := Real.sin x / x
        w0 * w0 * (w0 * w0)
    (tw.1 + window * spec j, tw.2 + window)

noncomputable def koAccum (spec freqs : ℕ → ℝ) (np : ℕ) (bandwidth fc : ℝ) :
    ℝ × ℝ :=
  (List.range np).foldl (koStep spec freqs bandwidth fc) (0, 0)

/-- The full smoother: for each target index `i < nko`, write `NAN`
(embedded as `none`) when `ko_freqs[i] < 1e-6`, otherwise run the inner
accumulation and write `total / window_total` when `window_total > 0`, else
`NAN`; indices `i ≥ nko` keep the caller's buffer contents. -/
noncomputable def konno_ohmachi_c (spec freqs : ℕ → ℝ) (np : ℕ)
    (ko_freqs : ℕ → ℝ) (ko_smooth : ℕ → Option ℝ) (nko : ℕ) (bandwidth : ℝ) :
    ℕ → Option ℝ :=
  fun i =>
    if i < nko then
      if ko_freqs i < 1e-6 then none
      else
        let tw := koAccum spec freqs np bandwidth (ko_freqs i)
        if tw.2 > 0 then some (tw.1 / tw.2) else none
    else ko_smooth i

/-! ### Spec-side formulations

The following definitions transcribe the formulas exactly as the
specification states them; the claim theorems relate them to the embedded
code above. -/

/-- Spec formula `w = 2*pi/period`. -/
noncomputable def wSpec (period : ℝ) : ℝ := 2 * Real.pi / period

/-- Spec formula `wd = w*sqrt(1-damping^2)`. -/
noncomputable def wdSpec (period damping : ℝ) : ℝ :=
  wSpec period * Real.sqrt (1 - damping ^ 2)

/-- Spec formula `e = exp(-damping*w*dt)`. -/
noncomputable def eSpec (period damping dt : ℝ) : ℝ :=
  Real.exp (-(damping * wSpec period * dt))

/-- Spec formula `sine = e*sin(wd*dt)`. -/
noncomputable def sineSpec (period damping dt : ℝ) : ℝ :=
  eSpec period damping dt * Real.sin (wdSpec period damping * dt)

/-- Spec formula `cosine = e*cos(wd*dt)`. -/
noncomputable def cosineSpec (period damping dt : ℝ) : ℝ :=
  eSpec period damping dt * Real.cos (wdSpec period damping * dt)

/-- Spec formula `dw = damping*w`. -/
noncomputable def dwSpec (period damping : ℝ) : ℝ := damping * wSpec period

/-- Spec formula `ddtw3 = 2*damping/(dt*w^3)`. -/
noncomputable def ddtw3Spec (period damping dt : ℝ) : ℝ :=
  2 * damping / (dt * wSpec period ^ 3)

/-- The intermediate value `b` of the recurrence, in the spec's notation:
previous displacement plus `g/w^2` minus the correction term `ddtw3*dug`. -/
noncomputable def bSpec (period damping dt pd g dug : ℝ) : ℝ :=
  pd + g / wSpec period ^ 2 - ddtw3Spec period damping dt * dug

/-- The intermediate value `a` of the recurrence, in the spec's notation:
formed from the previous velocity `pv`, from `b` and from `dug`. -/
noncomputable def aSpec (period damping dt pv b dug : ℝ) : ℝ :=
  1 / wdSpec period damping * pv + dwSpec period damping * (1 / wdSpec period damping) * b +
    1 / wdSpec period damping * (dug / (wSpec period ^ 2 * dt))

/-- The window membership set as the spec words it: `freq >= 1e-6` and
`min_ratio <= freq/fc <= max_ratio`. -/
def inWindow (bandwidth fc freq : ℝ) : Prop :=
  1e-6 ≤ freq ∧ ratioMin bandwidth ≤ freq / fc ∧ freq / fc ≤ ratioMax bandwidth

noncomputable instance (bandwidth fc freq : ℝ) :
    Decidable (inWindow bandwidth fc freq) := by
  unfold inWindow; infer_instance

/-- The window weight as the spec words it: exactly `1.0` on a near-exact
frequency match, otherwise the Konno-Ohmachi window raised to the 4th power. -/
noncomputable def koWeight (bandwidth fc freq : ℝ) : ℝ :=
  if |freq - fc| < 1e-6 then 1.0
  else
    (Real.sin (bandwidth * Real.logb 10 (freq / fc)) /
        (bandwidth * Real.logb 10 (freq / fc))) ^ 4

/-! ### Oscillator loop lemmas -/

/-- A step from zero state with zero forcing produces exactly zero outputs. -/
theorem oscStep_zero (c : OscConsts) : oscStep c 0 0 0 0 = ⟨0, 0, 0⟩ := by
  simp only [oscStep, OscOut.mk.injEq]
  refine ⟨by ring, by ring, by ring⟩

/-- With zero forcing and zero forcing increments up to `k`, the closed-form
recursion is identically zero. -/
theorem oscOut_zero (c : OscConsts) (g dug : ℕ → ℝ) :
    ∀ k, (∀ j, j ≤ k → g j = 0) → (∀ j, j ≤ k → dug j = 0) →
      oscOut c g dug k = ⟨0, 0, 0⟩ := by
  intro k
  induction k with
  | zero =>
    intro hg hd
    simp only [oscOut, hg 0 le_rfl, hd 0 le_rfl, oscStep_zero]
  | succ k ih =>
    intro hg hd
    have hz := ih (fun j hj => hg j (hj.trans (Nat.le_succ k)))
      (fun j hj => hd j (hj.trans (Nat.le_succ k)))
    simp only [oscOut, hz, hg (k + 1) le_rfl, hd (k + 1) le_rfl]
    simpa using oscStep_zero c

/-- The loop starting at index `k` leaves every buffer entry outside
`[k, k + n)` unchanged. -/
theorem oscLoop_frame (c : OscConsts) (g dug : ℕ → ℝ) :
    ∀ n k (B : Bufs) j, j < k ∨ k + n ≤ j →
      (oscLoop c g dug n k B).sacc j = B.sacc j ∧
      (oscLoop c g dug n k B).svel j = B.svel j ∧
      (oscLoop c g dug n k B).sdis j = B.sdis j := by
  intro n
  induction n with
  | zero => intro k B j _; exact ⟨rfl, rfl, rfl⟩
  | succ n ih =>
    intro k B j h
    have h0 := ih (k + 1) (oscWrite c g dug k (B.sdis (k - 1)) (B.svel (k - 1)) B) j
      (by omega)
    have hj : j ≠ k := by omega
    simp only [oscLoop]
    rw [h0.1, h0.2.1, h0.2.2]
    simp only [oscWrite]
    exact ⟨Function.update_noteq hj _ _, Function.update_noteq hj _ _,
      Function.update_noteq hj _ _⟩

/-- Loop invariant: if the buffers hold the correct previous state at
`k - 1`, then after the loop every index in `[k, k + n)` holds the
closed-form value `oscOut`. -/
theorem oscLoop_written (c : OscConsts) (g dug : ℕ → ℝ) :
    ∀ n k (B : Bufs), 1 ≤ k →
      B.sdis (k - 1) = (oscOut c g dug (k - 1)).sdis →
      B.svel (k - 1) = (oscOut c g dug (k - 1)).svel →
      ∀ j, k ≤ j → j < k + n →
        (oscLoop c g dug n k B).sacc j = (oscOut c g dug j).sacc ∧
        (oscLoop c g dug n k B).svel j = (oscOut c g dug j).svel ∧
        (oscLoop c g dug n k B).sdis j = (oscOut c g dug j).sdis := by
  intro n
  induction n with
  | zero => intro k B _ _ _ j hj1 hj2; omega
  | succ n ih =>
    intro k B hk h1 h2 j hj1 hj2
    obtain ⟨m, rfl⟩ : ∃ m, k = m + 1 := ⟨k - 1, by omega⟩
    simp only [Nat.add_sub_cancel] at h1 h2
    have hstep : oscStep c (B.sdis m) (B.svel m) (g (m + 1)) (dug (m + 1)) =
        oscOut c g dug (m + 1) := by
      rw [h1, h2]; rfl
    simp only [oscLoop, Nat.add_sub_cancel]
    rcases Nat.eq_or_lt_of_le hj1 with hje | hjl
    · subst hje
      have hfr := oscLoop_frame c g dug n (m + 1 + 1)
        (oscWrite c g dug (m + 1) (B.sdis m) (B.svel m) B) (m + 1) (by omega)
      rw [hfr.1, hfr.2.1, hfr.2.2]
      simp only [oscWrite]
      rw [hstep]
      exact ⟨Function.update_same _ _ _, Function.update_same _ _ _,
        Function.update_same _ _ _⟩
    · refine ih (m + 1 + 1) (oscWrite c g dug (m + 1) (B.sdis m) (B.svel m) B)
        (by omega) ?_ ?_ j (by omega) (by omega)
      · simp only [Nat.add_sub_cancel, oscWrite]
        rw [hstep]
        exact Function.update_same _ _ _
      · simp only [Nat.add_sub_cancel, oscWrite]
        rw [hstep]
        exact Function.update_same _ _ _

/-- Filled part of the run: every index `j < np - 1` of the result holds the
closed-form value `oscOut j`. -/
theorem runOsc_filled (c : OscConsts) (g dug : ℕ → ℝ) (np : ℕ) (B : Bufs)
    (j : ℕ) (hj : j < np - 1) :
    (runOsc c g dug np B).sacc j = (oscOut c g dug j).sacc ∧
    (runOsc c g dug np B).svel j = (oscOut c g dug j).svel ∧
    (runOsc c g dug np B).sdis j = (oscOut c g dug j).sdis := by
  have hw0 : (oscWrite c g dug 0 0 0 B).sacc 0 = (oscOut c g dug 0).sacc ∧
      (oscWrite c g dug 0 0 0 B).svel 0 = (oscOut c g dug 0).svel ∧
      (oscWrite c g dug 0 0 0 B).sdis 0 = (oscOut c g dug 0).sdis := by
    simp only [oscWrite, oscOut]
    exact ⟨Function.update_same _ _ _, Function.update_same _ _ _,
      Function.update_same _ _ _⟩
  rcases Nat.eq_zero_or_pos j with hj0 | hj1
  · subst hj0
    have hfr := oscLoop_frame c g dug (np - 2) 1 (oscWrite c g dug 0 0 0 B) 0
      (Or.inl Nat.zero_lt_one)
    unfold runOsc
    rw [hfr.1, hfr.2.1, hfr.2.2]
    exact hw0
  · exact oscLoop_written c g dug (np - 2) 1 (oscWrite c g dug 0 0 0 B) le_rfl
      hw0.2.2 hw0.2.1 j hj1 (by omega)

/-- Frame part of the run: with `np ≥ 2`, every index `j ≥ np - 1` keeps the
caller's buffer contents. -/
theorem runOsc_frame (c : OscConsts) (g dug : ℕ → ℝ) (np : ℕ) (B : Bufs)
    (h2 : 2 ≤ np) (j : ℕ) (hj : np - 1 ≤ j) :
    (runOsc c g dug np B).sacc j = B.sacc j ∧
    (runOsc c g dug np B).svel j = B.svel j ∧
    (runOsc c g dug np B).sdis j = B.sdis j := by
  have hfr := oscLoop_frame c g dug (np - 2) 1 (oscWrite c g dug 0 0 0 B) j
    (Or.inr (by omega))
  have hj0 : j ≠ 0 := by omega
  unfold runOsc
  rw [hfr.1, hfr.2.1, hfr.2.2]
  simp only [oscWrite]
  exact ⟨Function.update_noteq hj0 _ _, Function.update_noteq hj0 _ _,
    Function.update_noteq hj0 _ _⟩

/-- The loop body, computed with the constants of the C code, satisfies the
spec's three output formulas with the spec's `a` and `b`. -/
theorem oscStep_eq_spec (dt period damping pd pv g dug : ℝ) :
    (oscStep (mkConsts dt period damping) pd pv g dug).sdis =
      aSpec period damping dt pv (bSpec period damping dt pd g dug) dug *
          sineSpec period damping dt +
        bSpec period damping dt pd g dug * cosineSpec period damping dt +
        ddtw3Spec period damping dt * dug - g / wSpec period ^ 2 -
        dug / wSpec period ^ 2 ∧
    (oscStep (mkConsts dt period damping) pd pv g dug).svel =
      aSpec period damping dt pv (bSpec period damping dt pd g dug) dug *
          (wdSpec period damping * cosineSpec period damping dt -
            dwSpec period damping * sineSpec period damping dt) -
        bSpec period damping dt pd g dug *
          (wdSpec period damping * sineSpec period damping dt +
            dwSpec period damping * cosineSpec period damping dt) -
        dug / (wSpec period ^ 2 * dt) ∧
    (oscStep (mkConsts dt period damping) pd pv g dug).sacc =
      -2 * damping * wSpec period *
          (oscStep (mkConsts dt period damping) pd pv g dug).svel -
        wSpec period ^ 2 * (oscStep (mkConsts dt period damping) pd pv g dug).sdis := by
  have hsq : Real.sqrt (1 - damping * damping) = Real.sqrt (1 - damping ^ 2) := by
    rw [pow_two]
  have hwd : Real.sqrt (1 - damping * damping) * (2 * Real.pi / period) =
      2 * Real.pi / period * Real.sqrt (1 - damping ^ 2) := by rw [hsq]; ring
  have hexp : (-1 : ℝ) * damping * (2 * Real.pi / period) * dt =
      -(damping * (2 * Real.pi / period) * dt) := by ring
  simp only [oscStep, mkConsts, wSpec, wdSpec, eSpec, sineSpec, cosineSpec, dwSpec,
    ddtw3Spec, bSpec, aSpec, hwd, hexp]
  refine ⟨by ring, by ring, by ring⟩

/-! ### Konno-Ohmachi lemmas -/

/-- The loop's skip condition is the negation of the spec's window-membership
condition. -/
theorem skip_iff_not_inWindow (bandwidth fc freq : ℝ) :
    (freq < 1e-6 ∨ freq / fc > ratioMax bandwidth ∨ freq / fc < ratioMin bandwidth) ↔
      ¬ inWindow bandwidth fc freq := by
  unfold inWindow
  rw [not_and_or, not_and_or]
  simp only [not_le, gt_iff_lt]
  tauto

/-- A pair outside the window contributes nothing: the loop body returns the
accumulator unchanged. -/
theorem koStep_skip (spec freqs : ℕ → ℝ) (bandwidth fc : ℝ) (tw : ℝ × ℝ) (j : ℕ)
    (hw : ¬ inWindow bandwidth fc (freqs j)) :
    koStep spec freqs bandwidth fc tw j = tw := by
  unfold koStep
  rw [if_pos ((skip_iff_not_inWindow bandwidth fc (freqs j)).mpr hw)]

/-- A pair inside the window contributes exactly the spec's weight to both
running totals. -/
theorem koStep_kept (spec freqs : ℕ → ℝ) (bandwidth fc : ℝ) (tw : ℝ × ℝ) (j : ℕ)
    (hw : inWindow bandwidth fc (freqs j)) :
    koStep spec freqs bandwidth fc tw j =
      (tw.1 + koWeight bandwidth fc (freqs j) * spec j,
        tw.2 + koWeight bandwidth fc (freqs j)) := by
  have hskip : ¬ (freqs j < 1e-6 ∨ freqs j / fc > ratioMax bandwidth ∨
      freqs j / fc < ratioMin bandwidth) := fun hs =>
    ((skip_iff_not_inWindow bandwidth fc (freqs j)).mp hs) hw
  unfold koStep koWeight
  rw [if_neg hskip]
  by_cases hm : |freqs j - fc| < 1e-6
  · simp only [if_pos hm]
  · simp only [if_neg hm]
    have hpow : Real.sin (bandwidth * Real.logb 10 (freqs j / fc)) /
          (bandwidth * Real.logb 10 (freqs j / fc)) *
          (Real.sin (bandwidth * Real.logb 10 (freqs j / fc)) /
            (bandwidth * Real.logb 10 (freqs j / fc))) *
          (Real.sin (bandwidth * Real.logb 10 (freqs j / fc)) /
            (bandwidth * Real.logb 10 (freqs j / fc)) *
            (Real.sin (bandwidth * Real.logb 10 (freqs j / fc)) /
              (bandwidth * Real.logb 10 (freqs j / fc)))) =
        (Real.sin (bandwidth * Real.logb 10 (freqs j / fc)) /
            (bandwidth * Real.logb 10 (freqs j / fc))) ^ 4 := by
      ring
    rw [hpow]

/-- Unfolding one iteration of the accumulation loop. -/
theorem koAccum_succ (spec freqs : ℕ → ℝ) (np : ℕ) (bandwidth fc : ℝ) :
    koAccum spec freqs (np + 1) bandwidth fc =
      koStep spec freqs bandwidth fc (koAccum spec freqs np bandwidth fc) np := by
  unfold koAccum
  rw [List.range_succ, List.foldl_append, List.foldl_cons, List.foldl_nil]

/-- The accumulated pair equals the spec's two weighted sums over exactly the
in-window pairs. -/
theorem koAccum_eq_sum (spec freqs : ℕ → ℝ) (np : ℕ) (bandwidth fc : ℝ) :
    koAccum spec freqs np bandwidth fc =
      (Finset.sum ((Finset.range np).filter (fun j => inWindow bandwidth fc (freqs j)))
          (fun j => koWeight bandwidth fc (freqs j) * spec j),
        Finset.sum ((Finset.range np).filter (fun j => inWindow bandwidth fc (freqs j)))
          (fun j => koWeight bandwidth fc (freqs j))) := by
  induction np with
  | zero => simp [koAccum]
  | succ np ih =>
    rw [koAccum_succ, ih, Finset.range_succ, Finset.filter_insert]
    by_cases hw : inWindow bandwidth fc (freqs np)
    · rw [if_pos hw, koStep_kept spec freqs bandwidth fc _ np hw]
      have hnm : np ∉ (Finset.range np).filter
          (fun j => inWindow bandwidth fc (freqs j)) := by simp
      rw [Finset.sum_insert hnm, Finset.sum_insert hnm]
      exact Prod.ext (add_comm _ _) (add_comm _ _)
    · rw [if_neg hw, koStep_skip spec freqs bandwidth fc _ np hw]

/-- The quotient `sin x / x` has absolute value at most one, for every real
`x` (at `x = 0` the embedded quotient is `0`). -/
theorem abs_sin_div_le_one (x : ℝ) : |Real.sin x / x| ≤ 1 := by
  rcases eq_or_ne x 0 with h | h
  · simp [h]
  · rw [abs_div, div_le_one (abs_pos.mpr h)]
    exact Real.abs_sin_le_abs

/-- Every window weight is nonnegative. -/
theorem koWeight_nonneg (bandwidth fc freq : ℝ) : 0 ≤ koWeight bandwidth fc freq := by
  unfold koWeight
  split
  · norm_num
  · positivity

/-- Every window weight is at most one. -/
theorem koWeight_le_one (bandwidth fc freq : ℝ) : koWeight bandwidth fc freq ≤ 1 := by
  unfold koWeight
  split
  · norm_num
  · have h := abs_sin_div_le_one (bandwidth * Real.logb 10 (freq / fc))
    calc (Real.sin (bandwidth * Real.logb 10 (freq / fc)) /
            (bandwidth * Real.logb 10 (freq / fc))) ^ 4
        = |Real.sin (bandwidth * Real.logb 10 (freq / fc)) /
            (bandwidth * Real.logb 10 (freq / fc))| ^ 4 := by
          rw [← abs_pow, abs_of_nonneg (by positivity)]
      _ ≤ 1 ^ 4 := pow_le_pow_left₀ (abs_nonneg _) h 4
      _ = 1 := one_pow 4

/-! ### Claim theorems -/

/-- C4: for both variants of `calculate_spectrals_c` with `np >= 2`,
`period > 0`, `0 <= damping < 1` and positive step size, an all-zero input
acceleration yields exactly zero `sacc`, `svel`, `sdis` at every filled
index `k` in `0 .. np-2`. -/
theorem c4_zero_input_zero_output (acc times : ℕ → ℝ) (np : ℕ)
    (dt period damping : ℝ) (sa sv sd ta tv td : ℕ → ℝ)
    (h2 : 2 ≤ np) (hp : 0 < period) (hd0 : 0 ≤ damping) (hd1 : damping < 1)
    (hdt : 0 < dt) (ht : times 0 < times 1)
    (hz : ∀ k, k < np → acc k = 0) (k : ℕ) (hk : k < np - 1) :
    (Current.calculate_spectrals_c acc np dt period damping sa sv sd).sacc k = 0 ∧
    (Current.calculate_spectrals_c acc np dt period damping sa sv sd).svel k = 0 ∧
    (Current.calculate_spectrals_c acc np dt period damping sa sv sd).sdis k = 0 ∧
    (Legacy.calculate_spectrals_c times acc np period damping ta tv td).sacc k = 0 ∧
    (Legacy.calculate_spectrals_c times acc np period damping ta tv td).svel k = 0 ∧
    (Legacy.calculate_spectrals_c times acc np period damping ta tv td).sdis k = 0 := by
  have hg : ∀ j, j ≤ k → acc j = 0 := fun j hj => hz j (by omega)
  have hdug1 : ∀ j, j ≤ k → acc (j + 1) - acc j = 0 := fun j hj => by
    rw [hz j (by omega), hz (j + 1) (by omega)]; ring
  have hdug2 : ∀ j, j ≤ k →
      (acc (j + 1) - acc j) / Legacy.nsub (times 1 - times 0) period = 0 :=
    fun j hj => by rw [hz j (by omega), hz (j + 1) (by omega)]; simp
  have hcur := runOsc_filled (mkConsts dt period damping) acc
    (fun j => acc (j + 1) - acc j) np ⟨sa, sv, sd⟩ k hk
  have hozc := oscOut_zero (mkConsts dt period damping) acc
    (fun j => acc (j + 1) - acc j) k hg hdug1
  have hleg := runOsc_filled
    (mkConsts ((times 1 - times 0) / Legacy.nsub (times 1 - times 0) period) period damping)
    acc (fun j => (acc (j + 1) - acc j) / Legacy.nsub (times 1 - times 0) period)
    np ⟨ta, tv, td⟩ k hk
  have hozl := oscOut_zero
    (mkConsts ((times 1 - times 0) / Legacy.nsub (times 1 - times 0) period) period damping)
    acc (fun j => (acc (j + 1) - acc j) / Legacy.nsub (times 1 - times 0) period)
    k hg hdug2
  rw [hozc] at hcur
  rw [hozl] at hleg
  simp only [Current.calculate_spectrals_c, Legacy.calculate_spectrals_c]
  exact ⟨hcur.1, hcur.2.1, hcur.2.2, hleg.1, hleg.2.1, hleg.2.2⟩

/-- C5: for both variants with `np >= 2`, every output index `j >= np - 1`
retains the caller's buffer contents (in particular `np - 1` is never
written), and the values at the written indices `k < np - 1` are determined
by the computation alone — they do not depend on the initial buffer
contents. -/
theorem c5_frame_effect (acc times : ℕ → ℝ) (np : ℕ) (dt period damping : ℝ)
    (sa sv sd ta tv td sa2 sv2 sd2 ta2 tv2 td2 : ℕ → ℝ) (h2 : 2 ≤ np)
    (j k : ℕ) (hj : np - 1 ≤ j) (hk : k < np - 1) :
    (Current.calculate_spectrals_c acc np dt period damping sa sv sd).sacc j = sa j ∧
    (Current.calculate_spectrals_c acc np dt period damping sa sv sd).svel j = sv j ∧
    (Current.calculate_spectrals_c acc np dt period damping sa sv sd).sdis j = sd j ∧
    (Legacy.calculate_spectrals_c times acc np period damping ta tv td).sacc j = ta j ∧
    (Legacy.calculate_spectrals_c times acc np period damping ta tv td).svel j = tv j ∧
    (Legacy.calculate_spectrals_c times acc np period damping ta tv td).sdis j = td j ∧
    (Current.calculate_spectrals_c acc np dt period damping sa sv sd).sacc k =
      (Current.calculate_spectrals_c acc np dt period damping sa2 sv2 sd2).sacc k ∧
    (Current.calculate_spectrals_c acc np dt period damping sa sv sd).svel k =
      (Current.calculate_spectrals_c acc np dt period damping sa2 sv2 sd2).svel k ∧
    (Current.calculate_spectrals_c acc np dt period damping sa sv sd).sdis k =
      (Current.calculate_spectrals_c acc np dt period damping sa2 sv2 sd2).sdis k ∧
    (Legacy.calculate_spectrals_c times acc np period damping ta tv td).sacc k =
      (Legacy.calculate_spectrals_c times acc np period damping ta2 tv2 td2).sacc k ∧
    (Legacy.calculate_spectrals_c times acc np period damping ta tv td).svel k =
      (Legacy.calculate_spectrals_c times acc np period damping ta2 tv2 td2).svel k ∧
    (Legacy.calculate_spectrals_c times acc np period damping ta tv td).sdis k =
      (Legacy.calculate_spectrals_c times acc np period damping ta2 tv2 td2).sdis k := by
  have hcf := runOsc_frame (mkConsts dt period damping) acc
    (fun j => acc (j + 1) - acc j) np ⟨sa, sv, sd⟩ h2 j hj
  have hlf := runOsc_frame
    (mkConsts ((times 1 - times 0) / Legacy.nsub (times 1 - times 0) period) period damping)
    acc (fun j => (acc (j + 1) - acc j) / Legacy.nsub (times 1 - times 0) period)
    np ⟨ta, tv, td⟩ h2 j hj
  have hc1 := runOsc_filled (mkConsts dt period damping) acc
    (fun j => acc (j + 1) - acc j) np ⟨sa, sv, sd⟩ k hk
  have hc2 := runOsc_filled (mkConsts dt period damping) acc
    (fun j => acc (j + 1) - acc j) np ⟨sa2, sv2, sd2⟩ k hk
  have hl1 := runOsc_filled
    (mkConsts ((times 1 - times 0) / Legacy.nsub (times 1 - times 0) period) period damping)
    acc (fun j => (acc (j + 1) - acc j) / Legacy.nsub (times 1 - times 0) period)
    np ⟨ta, tv, td⟩ k hk
  have hl2 := runOsc_filled
    (mkConsts ((times 1 - times 0) / Legacy.nsub (times 1 - times 0) period) period damping)
    acc (fun j => (acc (j + 1) - acc j) / Legacy.nsub (times 1 - times 0) period)
    np ⟨ta2, tv2, td2⟩ k hk
  simp only [Current.calculate_spectrals_c, Legacy.calculate_spectrals_c]
  refine ⟨hcf.1, hcf.2.1, hcf.2.2, hlf.1, hlf.2.1, hlf.2.2, ?_, ?_, ?_, ?_, ?_, ?_⟩
  · rw [hc1.1, hc2.1]
  · rw [hc1.2.1, hc2.2.1]
  · rw [hc1.2.2, hc2.2.2]
  · rw [hl1.1, hl2.1]
  · rw [hl1.2.1, hl2.2.1]
  · rw [hl1.2.2, hl2.2.2]

/-- C6: a target frequency below `1e-6` yields the undefined marker and the
inner accumulation is skipped entirely — the output at that index does not
depend on the input spectrum at all. -/
theorem c6_small_target_nan (spec freqs spec2 freqs2 : ℕ → ℝ) (np np2 : ℕ)
    (ko_freqs : ℕ → ℝ) (buf : ℕ → Option ℝ) (nko : ℕ) (bandwidth : ℝ) (i : ℕ)
    (hi : i < nko) (hfc : ko_freqs i < 1e-6) :
    konno_ohmachi_c spec freqs np ko_freqs buf nko bandwidth i = none ∧
    konno_ohmachi_c spec2 freqs2 np2 ko_freqs buf nko bandwidth i = none := by
  constructor
  · unfold konno_ohmachi_c
    rw [if_pos hi, if_pos hfc]
  · unfold konno_ohmachi_c
    rw [if_pos hi, if_pos hfc]

/-- C3: for a target index with `ko_freqs[i] >= 1e-6`, the output is
`total / window_total` when `window_total > 0` and the undefined marker
otherwise; in particular when every input frequency lies outside
`[fc*min_ratio, fc*max_ratio]` or below `1e-6`, `window_total` stays `0`
and the output is the undefined marker. -/
theorem c3_division_or_nan (spec freqs : ℕ → ℝ) (np : ℕ) (ko_freqs : ℕ → ℝ)
    (buf : ℕ → Option ℝ) (nko : ℕ) (bandwidth : ℝ) (i : ℕ)
    (hi : i < nko) (hfc : (1e-6 : ℝ) ≤ ko_freqs i) :
    (0 < (koAccum spec freqs np bandwidth (ko_freqs i)).2 →
      konno_ohmachi_c spec freqs np ko_freqs buf nko bandwidth i =
        some ((koAccum spec freqs np bandwidth (ko_freqs i)).1 /
          (koAccum spec freqs np bandwidth (ko_freqs i)).2)) ∧
    (¬ 0 < (koAccum spec freqs np bandwidth (ko_freqs i)).2 →
      konno_ohmachi_c spec freqs np ko_freqs buf nko bandwidth i = none) ∧
    ((∀ j, j < np → freqs j < 1e-6 ∨ freqs j < ko_freqs i * ratioMin bandwidth ∨
        ko_freqs i * ratioMax bandwidth < freqs j) →
      (koAccum spec freqs np bandwidth (ko_freqs i)).2 = 0 ∧
      konno_ohmachi_c spec freqs np ko_freqs buf nko bandwidth i = none) := by
  have hnlt : ¬ ko_freqs i < 1e-6 := not_lt.mpr hfc
  have hfc0 : (0 : ℝ) < ko_freqs i := lt_of_lt_of_le (by norm_num) hfc
  refine ⟨?_, ?_, ?_⟩
  · intro hpos
    unfold konno_ohmachi_c
    rw [if_pos hi, if_neg hnlt]
    simp only []
    rw [if_pos hpos]
  · intro hneg
    unfold konno_ohmachi_c
    rw [if_pos hi, if_neg hnlt]
    simp only []
    rw [if_neg hneg]
  · intro hout
    have hempty : (Finset.range np).filter
        (fun j => inWindow bandwidth (ko_freqs i) (freqs j)) = ∅ := by
      apply Finset.filter_false_of_mem
      intro j hjmem
      have hj : j < np := Finset.mem_range.mp hjmem
      intro hwin
      rcases hout j hj with h | h | h
      · exact absurd hwin.1 (not_le.mpr h)
      · have : freqs j / ko_freqs i < ratioMin bandwidth :=
          (div_lt_iff₀ hfc0).mpr (by rw [mul_comm] at h; exact h)
        exact absurd hwin.2.1 (not_le.mpr this)
      · have : ratioMax bandwidth < freqs j / ko_freqs i :=
          (lt_div_iff₀ hfc0).mpr (by rw [mul_comm] at h; exact h)
        exact absurd hwin.2.2 (not_le.mpr this)
    have hzero : (koAccum spec freqs np bandwidth (ko_freqs i)).2 = 0 := by
      rw [koAccum_eq_sum, hempty]
      simp
    refine ⟨hzero, ?_⟩
    unfold konno_ohmachi_c
    rw [if_pos hi, if_neg hnlt]
    simp only []
    rw [if_neg (by rw [hzero]; exact lt_irrefl 0)]

/-- C1: for the current-variant `calculate_spectrals_c` with `np >= 2`,
`period > 0`, `0 <= damping < 1`, `dt > 0`, every step `k` in `0 .. np-2`
satisfies the spec's three closed-form output equations, with `a` and `b`
formed from the previous step's `sdis`/`svel` (zero state before index 0),
`g = acc[k]` and `dug = acc[k+1] - g`. -/
theorem c1_current_recurrence (acc : ℕ → ℝ) (np : ℕ) (dt period damping : ℝ)
    (sa sv sd : ℕ → ℝ) (h2 : 2 ≤ np) (hp : 0 < period) (hd0 : 0 ≤ damping)
    (hd1 : damping < 1) (hdt : 0 < dt) (k : ℕ) (hk : k < np - 1)
    (g dug pd pv : ℝ)
    (hg : g = acc k) (hdug : dug = acc (k + 1) - acc k)
    (hpd : pd = if k = 0 then 0 else
      (Current.calculate_spectrals_c acc np dt period damping sa sv sd).sdis (k - 1))
    (hpv : pv = if k = 0 then 0 else
      (Current.calculate_spectrals_c acc np dt period damping sa sv sd).svel (k - 1)) :
    (Current.calculate_spectrals_c acc np dt period damping sa sv sd).sdis k =
      aSpec period damping dt pv (bSpec period damping dt pd g dug) dug *
          sineSpec period damping dt +
        bSpec period damping dt pd g dug * cosineSpec period damping dt +
        ddtw3Spec period damping dt * dug - g / wSpec period ^ 2 -
        dug / wSpec period ^ 2 ∧
    (Current.calculate_spectrals_c acc np dt period damping sa sv sd).svel k =
      aSpec period damping dt pv (bSpec period damping dt pd g dug) dug *
          (wdSpec period damping * cosineSpec period damping dt -
            dwSpec period damping * sineSpec period damping dt) -
        bSpec period damping dt pd g dug *
          (wdSpec period damping * sineSpec period damping dt +
            dwSpec period damping * cosineSpec period damping dt) -
        dug / (wSpec period ^ 2 * dt) ∧
    (Current.calculate_spectrals_c acc np dt period damping sa sv sd).sacc k =
      -2 * damping * wSpec period *
          (Current.calculate_spectrals_c acc np dt period damping sa sv sd).svel k -
        wSpec period ^ 2 *
          (Current.calculate_spectrals_c acc np dt period damping sa sv sd).sdis k := by
  subst hg hdug hpd hpv
  simp only [Current.calculate_spectrals_c]
  rcases Nat.eq_zero_or_pos k with rfl | hkpos
  · have hfill := runOsc_filled (mkConsts dt period damping) acc
      (fun j => acc (j + 1) - acc j) np ⟨sa, sv, sd⟩ 0 hk
    rw [hfill.1, hfill.2.1, hfill.2.2, if_pos rfl, if_pos rfl]
    simp only [oscOut]
    exact oscStep_eq_spec dt period damping 0 0 (acc 0) (acc (0 + 1) - acc 0)
  · obtain ⟨m, rfl⟩ : ∃ m, k = m + 1 := ⟨k - 1, by omega⟩
    have hfill := runOsc_filled (mkConsts dt period damping) acc
      (fun j => acc (j + 1) - acc j) np ⟨sa, sv, sd⟩ (m + 1) hk
    have hfillm := runOsc_filled (mkConsts dt period damping) acc
      (fun j => acc (j + 1) - acc j) np ⟨sa, sv, sd⟩ m (by omega)
    rw [hfill.1, hfill.2.1, hfill.2.2, if_neg (Nat.succ_ne_zero m),
      if_neg (Nat.succ_ne_zero m)]
    simp only [Nat.add_sub_cancel]
    rw [hfillm.2.1, hfillm.2.2]
    simp only [oscOut]
    exact oscStep_eq_spec dt period damping
      (oscOut (mkConsts dt period damping) acc (fun j => acc (j + 1) - acc j) m).sdis
      (oscOut (mkConsts dt period damping) acc (fun j => acc (j + 1) - acc j) m).svel
      (acc (m + 1)) (acc (m + 1 + 1) - acc (m + 1))

/-- C2: with `bandwidth > 0` and target `fc >= 1e-6`, the accumulated pair
ranges over exactly the in-window input pairs, a near-exact match weighing
exactly `1.0` and every other kept pair weighing the 4th power of the
Konno-Ohmachi window; out-of-window pairs contribute nothing to either sum. -/
theorem c2_window_sums (spec freqs : ℕ → ℝ) (np : ℕ) (bandwidth fc : ℝ)
    (hb : 0 < bandwidth) (hfc : (1e-6 : ℝ) ≤ fc) :
    koAccum spec freqs np bandwidth fc =
      (Finset.sum ((Finset.range np).filter (fun j => inWindow bandwidth fc (freqs j)))
          (fun j => koWeight bandwidth fc (freqs j) * spec j),
        Finset.sum ((Finset.range np).filter (fun j => inWindow bandwidth fc (freqs j)))
          (fun j => koWeight bandwidth fc (freqs j))) :=
  koAccum_eq_sum spec freqs np bandwidth fc

/-- C9: on a spectrum whose values are all exactly `1.0`, every output entry
with a positive `window_total` equals exactly `1.0`. -/
theorem c9_flat_spectrum (spec freqs : ℕ → ℝ) (np : ℕ) (ko_freqs : ℕ → ℝ)
    (buf : ℕ → Option ℝ) (nko : ℕ) (bandwidth : ℝ) (i : ℕ)
    (hi : i < nko) (hone : ∀ j, j < np → spec j = 1)
    (hfc : ¬ ko_freqs i < 1e-6)
    (hwt : 0 < (koAccum spec freqs np bandwidth (ko_freqs i)).2) :
    konno_ohmachi_c spec freqs np ko_freqs buf nko bandwidth i = some 1 := by
  have hacc := koAccum_eq_sum spec freqs np bandwidth (ko_freqs i)
  have hT := congrArg Prod.fst hacc
  have hW := congrArg Prod.snd hacc
  simp only at hT hW
  have hTW : (koAccum spec freqs np bandwidth (ko_freqs i)).1 =
      (koAccum spec freqs np bandwidth (ko_freqs i)).2 := by
    rw [hT, hW]
    refine Finset.sum_congr rfl (fun j hj => ?_)
    rw [hone j (Finset.mem_range.mp (Finset.mem_filter.mp hj).1), mul_one]
  unfold konno_ohmachi_c
  rw [if_pos hi, if_neg hfc]
  simp only []
  rw [if_pos hwt, hTW, div_self (ne_of_gt hwt)]

/-- C10 (implicit): every accumulated window weight lies in `[0, 1]`, and a
smoothed value with positive `window_total` is a weighted average of the
contributing spectrum values, hence lies between any lower bound `m` and
upper bound `M` of those values. -/
theorem c10_weighted_average_bounds (spec freqs : ℕ → ℝ) (np : ℕ)
    (ko_freqs : ℕ → ℝ) (buf : ℕ → Option ℝ) (nko : ℕ) (bandwidth m M : ℝ) (i : ℕ)
    (hi : i < nko) (hb : 0 < bandwidth) (hfc : (1e-6 : ℝ) ≤ ko_freqs i)
    (hbound : ∀ j, j < np → inWindow bandwidth (ko_freqs i) (freqs j) →
      m ≤ spec j ∧ spec j ≤ M)
    (hwt : 0 < (koAccum spec freqs np bandwidth (ko_freqs i)).2) :
    (∀ j, j < np → inWindow bandwidth (ko_freqs i) (freqs j) →
      0 ≤ koWeight bandwidth (ko_freqs i) (freqs j) ∧
      koWeight bandwidth (ko_freqs i) (freqs j) ≤ 1) ∧
    ∃ v, konno_ohmachi_c spec freqs np ko_freqs buf nko bandwidth i = some v ∧
      m ≤ v ∧ v ≤ M := by
  refine ⟨fun j _ _ => ⟨koWeight_nonneg _ _ _, koWeight_le_one _ _ _⟩, ?_⟩
  have hacc := koAccum_eq_sum spec freqs np bandwidth (ko_freqs i)
  have hT := congrArg Prod.fst hacc
  have hW := congrArg Prod.snd hacc
  simp only at hT hW
  have hle : (koAccum spec freqs np bandwidth (ko_freqs i)).1 ≤
      M * (koAccum spec freqs np bandwidth (ko_freqs i)).2 := by
    rw [hT, hW, Finset.mul_sum]
    refine Finset.sum_le_sum (fun j hj => ?_)
    have hjr : j < np := Finset.mem_range.mp (Finset.mem_filter.mp hj).1
    have hjw := (Finset.mem_filter.mp hj).2
    calc koWeight bandwidth (ko_freqs i) (freqs j) * spec j
        ≤ koWeight bandwidth (ko_freqs i) (freqs j) * M :=
          mul_le_mul_of_nonneg_left (hbound j hjr hjw).2 (koWeight_nonneg _ _ _)
      _ = M * koWeight bandwidth (ko_freqs i) (freqs j) := mul_comm _ _
  have hge : m * (koAccum spec freqs np bandwidth (ko_freqs i)).2 ≤
      (koAccum spec freqs np bandwidth (ko_freqs i)).1 := by
    rw [hT, hW, Finset.mul_sum]
    refine Finset.sum_le_sum (fun j hj => ?_)
    have hjr : j < np := Finset.mem_range.mp (Finset.mem_filter.mp hj).1
    have hjw := (Finset.mem_filter.mp hj).2
    calc m * koWeight bandwidth (ko_freqs i) (freqs j)
        = koWeight bandwidth (ko_freqs i) (freqs j) * m := mul_comm _ _
      _ ≤ koWeight bandwidth (ko_freqs i) (freqs j) * spec j :=
          mul_le_mul_of_nonneg_left (hbound j hjr hjw).1 (koWeight_nonneg _ _ _)
  refine ⟨(koAccum spec freqs np bandwidth (ko_freqs i)).1 /
    (koAccum spec freqs np bandwidth (ko_freqs i)).2, ?_, ?_, ?_⟩
  · unfold konno_ohmachi_c
    rw [if_pos hi, if_neg (not_lt.mpr hfc)]
    simp only []
    rw [if_pos hwt]
  · rw [le_div_iff₀ hwt]
    exact hge
  · rw [div_le_iff₀ hwt]
    exact hle

/-- Truncation toward zero sends the whole open interval `(-1, 1)` to `0`. -/
theorem truncR_eq_zero (x : ℝ) (h1 : -1 < x) (h2 : x < 1) : truncR x = 0 := by
  unfold truncR
  split_ifs with h
  · exact Int.floor_eq_zero_iff.mpr ⟨h, h2⟩
  · exact Int.ceil_eq_zero_iff.mpr ⟨h1, le_of_lt (not_le.mp h)⟩

/-- C7 counterexample: at `times[1] - times[0] = 1/10000`, `period = 1`, the
code's sub-step count is `1`, while the claimed formula
`floor(10*dt/period - 0.01) + 1` gives `0`; the claim as stated is false. -/
theorem c7_counterexample :
    Legacy.nsub (1 / 10000) 1 = 1 ∧
    ((⌊(10 * ((1 : ℝ) / 10000) / 1 - 0.01)⌋ : ℤ) : ℝ) + 1 = 0 ∧
    ¬ Legacy.nsub (1 / 10000) 1 =
        ((⌊(10 * ((1 : ℝ) / 10000) / 1 - 0.01)⌋ : ℤ) : ℝ) + 1 := by
  have hval : (10 * ((1 : ℝ) / 10000) / 1 - 0.01) = -9 / 1000 := by norm_num
  have hfl : ⌊(-9 / 1000 : ℝ)⌋ = -1 :=
    Int.floor_eq_iff.mpr ⟨by norm_num, by norm_num⟩
  have hns : Legacy.nsub (1 / 10000) 1 = 1 := by
    unfold Legacy.nsub truncR
    rw [hval, if_neg (by norm_num),
      show ⌈(-9 / 1000 : ℝ)⌉ = 0 from Int.ceil_eq_zero_iff.mpr ⟨by norm_num, by norm_num⟩]
    norm_num
  refine ⟨hns, ?_, ?_⟩
  · rw [hval, hfl]; norm_num
  · rw [hval, hfl, hns]; norm_num

/-- C7 amended: the legacy variant derives `dt = times[1] - times[0]`, uses
sub-step count `ns = trunc(10*dt/period - 0.01) + 1` with truncation toward
zero (which agrees with the claimed `floor` form whenever
`10*dt/period >= 0.01`), effective step `dt/ns` in all per-call constants,
and forcing increment `dug = (acc[k+1] - acc[k])/ns` at every step. -/
theorem c7_amended_legacy_substeps (times acc : ℕ → ℝ) (np : ℕ)
    (period damping : ℝ) (sa sv sd : ℕ → ℝ) (hp : 0 < period)
    (ht : times 0 < times 1) :
    Legacy.calculate_spectrals_c times acc np period damping sa sv sd =
      runOsc (mkConsts ((times 1 - times 0) / Legacy.nsub (times 1 - times 0) period)
          period damping)
        acc (fun k => (acc (k + 1) - acc k) / Legacy.nsub (times 1 - times 0) period) np
        ⟨sa, sv, sd⟩ ∧
    Legacy.nsub (times 1 - times 0) period =
      ((truncR (10 * (times 1 - times 0) / period - 0.01) : ℤ) : ℝ) + 1 ∧
    ((0.01 : ℝ) ≤ 10 * (times 1 - times 0) / period →
      Legacy.nsub (times 1 - times 0) period =
        ((⌊10 * (times 1 - times 0) / period - 0.01⌋ : ℤ) : ℝ) + 1) := by
  refine ⟨rfl, ?_, ?_⟩
  · unfold Legacy.nsub
    norm_num
  · intro h
    unfold Legacy.nsub truncR
    rw [if_pos (by linarith)]
    norm_num

/-- C8: whenever the legacy sub-step count is `1` (the quantity
`10*(times[1]-times[0])/period - 0.01` is below `1`), the legacy variant
produces exactly the same three outputs at every filled index as the current
variant called with `dt = times[1] - times[0]`. -/
theorem c8_legacy_matches_current (times acc : ℕ → ℝ) (np : ℕ)
    (period damping : ℝ) (sa sv sd : ℕ → ℝ) (hp : 0 < period)
    (ht : times 0 < times 1)
    (hns : 10 * (times 1 - times 0) / period - 0.01 < 1)
    (k : ℕ) (hk : k < np - 1) :
    (Legacy.calculate_spectrals_c times acc np period damping sa sv sd).sacc k =
      (Current.calculate_spectrals_c acc np (times 1 - times 0) period damping
        sa sv sd).sacc k ∧
    (Legacy.calculate_spectrals_c times acc np period damping sa sv sd).svel k =
      (Current.calculate_spectrals_c acc np (times 1 - times 0) period damping
        sa sv sd).svel k ∧
    (Legacy.calculate_spectrals_c times acc np period damping sa sv sd).sdis k =
      (Current.calculate_spectrals_c acc np (times 1 - times 0) period damping
        sa sv sd).sdis k := by
  have hpos : 0 < 10 * (times 1 - times 0) / period :=
    div_pos (by linarith) hp
  have hns1 : Legacy.nsub (times 1 - times 0) period = 1 := by
    unfold Legacy.nsub
    rw [truncR_eq_zero _ (by linarith) (by linarith)]
    norm_num
  have hfun : (fun j => (acc (j + 1) - acc j) / Legacy.nsub (times 1 - times 0) period) =
      (fun j => acc (j + 1) - acc j) := by
    funext j
    rw [hns1, div_one]
  have hdt : (times 1 - times 0) / Legacy.nsub (times 1 - times 0) period =
      times 1 - times 0 := by
    rw [hns1, div_one]
  simp only [Legacy.calculate_spectrals_c, Current.calculate_spectrals_c]
  rw [hfun, hdt]
  exact ⟨rfl, rfl, rfl⟩

/-! ### Concrete evaluations used by witnesses -/

/-- On the single pair `(freq, spec) = (3, 1)` with target `fc = 3` and
`bandwidth = 20`, the accumulation keeps the pair with weight exactly `1`. -/
theorem koAccum_demo : koAccum (fun _ => 1) (fun _ => 3) 1 20 3 = (1, 1) := by
  have hmax1 : (1 : ℝ) ≤ ratioMax 20 := by
    unfold ratioMax
    exact Real.one_le_rpow (by norm_num) (by norm_num)
  have hmaxpos : (0 : ℝ) < ratioMax 20 := lt_of_lt_of_le one_pos hmax1
  have hmin1 : ratioMin 20 ≤ 1 := by
    unfold ratioMin
    rw [div_le_one hmaxpos]
    exact le_trans (by norm_num) hmax1
  have h1 : koAccum (fun _ => 1) (fun _ => 3) 1 20 3 =
      koStep (fun _ => 1) (fun _ => 3) 20 3 (koAccum (fun _ => 1) (fun _ => 3) 0 20 3) 0 :=
    koAccum_succ (fun _ => 1) (fun _ => 3) 0 20 3
  have h0 : koAccum (fun _ => 1) (fun _ => 3) 0 20 3 = (0, 0) := by
    unfold koAccum
    simp
  rw [h1, h0]
  unfold koStep
  rw [if_neg ?hskip]
  case hskip =>
    rintro (h | h | h)
    · norm_num at h
    · rw [show (3 : ℝ) / 3 = 1 by norm_num] at h
      exact absurd h (not_lt.mpr hmax1)
    · rw [show (3 : ℝ) / 3 = 1 by norm_num] at h
      exact absurd h (not_lt.mpr hmin1)
  rw [if_pos (by norm_num : |(3 : ℝ) - 3| < 1e-6)]
  norm_num

/-! ### Witnesses -/

/-- Witness for C1 at `acc = 0`, `np = 2`, `dt = 1`, `period = 1`,
`damping = 1/2`, step `k = 0`. -/
theorem c1_witness :
    (Current.calculate_spectrals_c (fun _ => 0) 2 1 1 (1 / 2)
        (fun _ => 0) (fun _ => 0) (fun _ => 0)).sdis 0 =
      aSpec 1 (1 / 2) 1 0 (bSpec 1 (1 / 2) 1 0 0 0) 0 * sineSpec 1 (1 / 2) 1 +
        bSpec 1 (1 / 2) 1 0 0 0 * cosineSpec 1 (1 / 2) 1 +
        ddtw3Spec 1 (1 / 2) 1 * 0 - 0 / wSpec 1 ^ 2 - 0 / wSpec 1 ^ 2 ∧
    (Current.calculate_spectrals_c (fun _ => 0) 2 1 1 (1 / 2)
        (fun _ => 0) (fun _ => 0) (fun _ => 0)).svel 0 =
      aSpec 1 (1 / 2) 1 0 (bSpec 1 (1 / 2) 1 0 0 0) 0 *
          (wdSpec 1 (1 / 2) * cosineSpec 1 (1 / 2) 1 -
            dwSpec 1 (1 / 2) * sineSpec 1 (1 / 2) 1) -
        bSpec 1 (1 / 2) 1 0 0 0 *
          (wdSpec 1 (1 / 2) * sineSpec 1 (1 / 2) 1 +
            dwSpec 1 (1 / 2) * cosineSpec 1 (1 / 2) 1) -
        0 / (wSpec 1 ^ 2 * 1) ∧
    (Current.calculate_spectrals_c (fun _ => 0) 2 1 1 (1 / 2)
        (fun _ => 0) (fun _ => 0) (fun _ => 0)).sacc 0 =
      -2 * (1 / 2) * wSpec 1 *
          (Current.calculate_spectrals_c (fun _ => 0) 2 1 1 (1 / 2)
            (fun _ => 0) (fun _ => 0) (fun _ => 0)).svel 0 -
        wSpec 1 ^ 2 *
          (Current.calculate_spectrals_c (fun _ => 0) 2 1 1 (1 / 2)
            (fun _ => 0) (fun _ => 0) (fun _ => 0)).sdis 0 :=
  c1_current_recurrence (fun _ => 0) 2 1 1 (1 / 2) (fun _ => 0) (fun _ => 0)
    (fun _ => 0) (by decide) one_pos (by norm_num) (by norm_num) one_pos 0
    (by decide) 0 0 0 0 rfl (by simp) (by simp) (by simp)

/-- Witness for C2 at `np = 0`, `bandwidth = 1`, `fc = 1`. -/
theorem c2_witness :
    koAccum (fun _ => 0) (fun _ => 0) 0 1 1 =
      (Finset.sum ((Finset.range 0).filter (fun j => inWindow 1 1 ((fun _ => 0) j)))
          (fun j => koWeight 1 1 ((fun _ => 0) j) * (fun _ => 0) j),
        Finset.sum ((Finset.range 0).filter (fun j => inWindow 1 1 ((fun _ => 0) j)))
          (fun j => koWeight 1 1 ((fun _ => 0) j))) :=
  c2_window_sums (fun _ => 0) (fun _ => 0) 0 1 1 one_pos (by norm_num)

/-- Witness for C3 at `np = 0`, `nko = 1`, `i = 0`, target frequency `1`. -/
theorem c3_witness :
    (0 < (koAccum (fun _ => 0) (fun _ => 0) 0 1 ((fun _ => (1 : ℝ)) 0)).2 →
      konno_ohmachi_c (fun _ => 0) (fun _ => 0) 0 (fun _ => 1) (fun _ => none) 1 1 0 =
        some ((koAccum (fun _ => 0) (fun _ => 0) 0 1 ((fun _ => (1 : ℝ)) 0)).1 /
          (koAccum (fun _ => 0) (fun _ => 0) 0 1 ((fun _ => (1 : ℝ)) 0)).2)) ∧
    (¬ 0 < (koAccum (fun _ => 0) (fun _ => 0) 0 1 ((fun _ => (1 : ℝ)) 0)).2 →
      konno_ohmachi_c (fun _ => 0) (fun _ => 0) 0 (fun _ => 1) (fun _ => none) 1 1 0 =
        none) ∧
    ((∀ j, j < 0 → (fun _ => (0 : ℝ)) j < 1e-6 ∨
        (fun _ => (0 : ℝ)) j < (fun _ => (1 : ℝ)) 0 * ratioMin 1 ∨
        (fun _ => (1 : ℝ)) 0 * ratioMax 1 < (fun _ => (0 : ℝ)) j) →
      (koAccum (fun _ => 0) (fun _ => 0) 0 1 ((fun _ => (1 : ℝ)) 0)).2 = 0 ∧
      konno_ohmachi_c (fun _ => 0) (fun _ => 0) 0 (fun _ => 1) (fun _ => none) 1 1 0 =
        none) :=
  c3_division_or_nan (fun _ => 0) (fun _ => 0) 0 (fun _ => 1) (fun _ => none) 1 1 0
    (by decide) (by norm_num)

/-- Witness for C4 at `acc = 0`, `np = 2`, `times j = j`, `dt = 1`,
`period = 1`, `damping = 1/2`, index `k = 0`. -/
theorem c4_witness :
    (Current.calculate_spectrals_c (fun _ => 0) 2 1 1 (1 / 2)
        (fun _ => 0) (fun _ => 0) (fun _ => 0)).sacc 0 = 0 ∧
    (Current.calculate_spectrals_c (fun _ => 0) 2 1 1 (1 / 2)
        (fun _ => 0) (fun _ => 0) (fun _ => 0)).svel 0 = 0 ∧
    (Current.calculate_spectrals_c (fun _ => 0) 2 1 1 (1 / 2)
        (fun _ => 0) (fun _ => 0) (fun _ => 0)).sdis 0 = 0 ∧
    (Legacy.calculate_spectrals_c (fun j : ℕ => (j : ℝ)) (fun _ => 0) 2 1 (1 / 2)
        (fun _ => 0) (fun _ => 0) (fun _ => 0)).sacc 0 = 0 ∧
    (Legacy.calculate_spectrals_c (fun j : ℕ => (j : ℝ)) (fun _ => 0) 2 1 (1 / 2)
        (fun _ => 0) (fun _ => 0) (fun _ => 0)).svel 0 = 0 ∧
    (Legacy.calculate_spectrals_c (fun j : ℕ => (j : ℝ)) (fun _ => 0) 2 1 (1 / 2)
        (fun _ => 0) (fun _ => 0) (fun _ => 0)).sdis 0 = 0 :=
  c4_zero_input_zero_output (fun _ => 0) (fun j : ℕ => (j : ℝ)) 2 1 1 (1 / 2)
    (fun _ => 0) (fun _ => 0) (fun _ => 0) (fun _ => 0) (fun _ => 0) (fun _ => 0)
    (by decide) one_pos (by norm_num) (by norm_num) one_pos (by norm_num)
    (fun _ _ => rfl) 0 (by decide)

/-- Witness for C5 at `np = 2`, untouched index `j = 1`, written index
`k = 0`, with distinguishable constant initial buffers. -/
theorem c5_witness :
    (Current.calculate_spectrals_c (fun _ => 0) 2 1 1 (1 / 2)
        (fun _ => 1) (fun _ => 2) (fun _ => 3)).sacc 1 = 1 ∧
    (Current.calculate_spectrals_c (fun _ => 0) 2 1 1 (1 / 2)
        (fun _ => 1) (fun _ => 2) (fun _ => 3)).svel 1 = 2 ∧
    (Current.calculate_spectrals_c (fun _ => 0) 2 1 1 (1 / 2)
        (fun _ => 1) (fun _ => 2) (fun _ => 3)).sdis 1 = 3 ∧
    (Legacy.calculate_spectrals_c (fun j : ℕ => (j : ℝ)) (fun _ => 0) 2 1 (1 / 2)
        (fun _ => 4) (fun _ => 5) (fun _ => 6)).sacc 1 = 4 ∧
    (Legacy.calculate_spectrals_c (fun j : ℕ => (j : ℝ)) (fun _ => 0) 2 1 (1 / 2)
        (fun _ => 4) (fun _ => 5) (fun _ => 6)).svel 1 = 5 ∧
    (Legacy.calculate_spectrals_c (fun j : ℕ => (j : ℝ)) (fun _ => 0) 2 1 (1 / 2)
        (fun _ => 4) (fun _ => 5) (fun _ => 6)).sdis 1 = 6 ∧
    (Current.calculate_spectrals_c (fun _ => 0) 2 1 1 (1 / 2)
        (fun _ => 1) (fun _ => 2) (fun _ => 3)).sacc 0 =
      (Current.calculate_spectrals_c (fun _ => 0) 2 1 1 (1 / 2)
        (fun _ => 7) (fun _ => 8) (fun _ => 9)).sacc 0 ∧
    (Current.calculate_spectrals_c (fun _ => 0) 2 1 1 (1 / 2)
        (fun _ => 1) (fun _ => 2) (fun _ => 3)).svel 0 =
      (Current.calculate_spectrals_c (fun _ => 0) 2 1 1 (1 / 2)
        (fun _ => 7) (fun _ => 8) (fun _ => 9)).svel 0 ∧
    (Current.calculate_spectrals_c (fun _ => 0) 2 1 1 (1 / 2)
        (fun _ => 1) (fun _ => 2) (fun _ => 3)).sdis 0 =
      (Current.calculate_spectrals_c (fun _ => 0) 2 1 1 (1 / 2)
        (fun _ => 7) (fun _ => 8) (fun _ => 9)).sdis 0 ∧
    (Legacy.calculate_spectrals_c (fun j : ℕ => (j : ℝ)) (fun _ => 0) 2 1 (1 / 2)
        (fun _ => 4) (fun _ => 5) (fun _ => 6)).sacc 0 =
      (Legacy.calculate_spectrals_c (fun j : ℕ => (j : ℝ)) (fun _ => 0) 2 1 (1 / 2)
        (fun _ => 10) (fun _ => 11) (fun _ => 12)).sacc 0 ∧
    (Legacy.calculate_spectrals_c (fun j : ℕ => (j : ℝ)) (fun _ => 0) 2 1 (1 / 2)
        (fun _ => 4) (fun _ => 5) (fun _ => 6)).svel 0 =
      (Legacy.calculate_spectrals_c (fun j : ℕ => (j : ℝ)) (fun _ => 0) 2 1 (1 / 2)
        (fun _ => 10) (fun _ => 11) (fun _ => 12)).svel 0 ∧
    (Legacy.calculate_spectrals_c (fun j : ℕ => (j : ℝ)) (fun _ => 0) 2 1 (1 / 2)
        (fun _ => 4) (fun _ => 5) (fun _ => 6)).sdis 0 =
      (Legacy.calculate_spectrals_c (fun j : ℕ => (j : ℝ)) (fun _ => 0) 2 1 (1 / 2)
        (fun _ => 10) (fun _ => 11) (fun _ => 12)).sdis 0 :=
  c5_frame_effect (fun _ => 0) (fun j : ℕ => (j : ℝ)) 2 1 1 (1 / 2)
    (fun _ => 1) (fun _ => 2) (fun _ => 3) (fun _ => 4) (fun _ => 5) (fun _ => 6)
    (fun _ => 7) (fun _ => 8) (fun _ => 9) (fun _ => 10) (fun _ => 11) (fun _ => 12)
    (by decide) 1 0 (by decide) (by decide)

/-- Witness for C6 at `nko = 1`, `i = 0`, target frequency `0`. -/
theorem c6_witness :
    konno_ohmachi_c (fun _ => 0) (fun _ => 0) 0 (fun _ => 0) (fun _ => none) 1 1 0 =
      none ∧
    konno_ohmachi_c (fun _ => 1) (fun _ => 1) 1 (fun _ => 0) (fun _ => none) 1 1 0 =
      none :=
  c6_small_target_nan (fun _ => 0) (fun _ => 0) (fun _ => 1) (fun _ => 1) 0 1
    (fun _ => 0) (fun _ => none) 1 1 0 (by decide) (by norm_num)

/-- Witness for C7's amended statement at `times j = j`, `period = 1`. -/
theorem c7_witness :
    Legacy.calculate_spectrals_c (fun j : ℕ => (j : ℝ)) (fun _ => 0) 2 1 (1 / 2)
        (fun _ => 0) (fun _ => 0) (fun _ => 0) =
      runOsc
        (mkConsts
          (((fun j : ℕ => (j : ℝ)) 1 - (fun j : ℕ => (j : ℝ)) 0) /
            Legacy.nsub ((fun j : ℕ => (j : ℝ)) 1 - (fun j : ℕ => (j : ℝ)) 0) 1) 1 (1 / 2))
        (fun _ => 0)
        (fun k => ((fun _ => (0 : ℝ)) (k + 1) - (fun _ => (0 : ℝ)) k) /
          Legacy.nsub ((fun j : ℕ => (j : ℝ)) 1 - (fun j : ℕ => (j : ℝ)) 0) 1) 2
        ⟨fun _ => 0, fun _ => 0, fun _ => 0⟩ ∧
    Legacy.nsub ((fun j : ℕ => (j : ℝ)) 1 - (fun j : ℕ => (j : ℝ)) 0) 1 =
      ((truncR (10 * ((fun j : ℕ => (j : ℝ)) 1 - (fun j : ℕ => (j : ℝ)) 0) / 1 - 0.01) : ℤ) : ℝ) +
        1 ∧
    ((0.01 : ℝ) ≤ 10 * ((fun j : ℕ => (j : ℝ)) 1 - (fun j : ℕ => (j : ℝ)) 0) / 1 →
      Legacy.nsub ((fun j : ℕ => (j : ℝ)) 1 - (fun j : ℕ => (j : ℝ)) 0) 1 =
        ((⌊10 * ((fun j : ℕ => (j : ℝ)) 1 - (fun j : ℕ => (j : ℝ)) 0) / 1 - 0.01⌋ : ℤ) : ℝ) + 1) :=
  c7_amended_legacy_substeps (fun j : ℕ => (j : ℝ)) (fun _ => 0) 2 1 (1 / 2)
    (fun _ => 0) (fun _ => 0) (fun _ => 0) one_pos (by norm_num)

/-- Witness for C8 at `times j = j`, `period = 20` (so `ns = 1`), `np = 2`,
index `k = 0`. -/
theorem c8_witness :
    (Legacy.calculate_spectrals_c (fun j : ℕ => (j : ℝ)) (fun _ => 0) 2 20 0
        (fun _ => 0) (fun _ => 0) (fun _ => 0)).sacc 0 =
      (Current.calculate_spectrals_c (fun _ => 0) 2
        ((fun j : ℕ => (j : ℝ)) 1 - (fun j : ℕ => (j : ℝ)) 0) 20 0
        (fun _ => 0) (fun _ => 0) (fun _ => 0)).sacc 0 ∧
    (Legacy.calculate_spectrals_c (fun j : ℕ => (j : ℝ)) (fun _ => 0) 2 20 0
        (fun _ => 0) (fun _ => 0) (fun _ => 0)).svel 0 =
      (Current.calculate_spectrals_c (fun _ => 0) 2
        ((fun j : ℕ => (j : ℝ)) 1 - (fun j : ℕ => (j : ℝ)) 0) 20 0
        (fun _ => 0) (fun _ => 0) (fun _ => 0)).svel 0 ∧
    (Legacy.calculate_spectrals_c (fun j : ℕ => (j : ℝ)) (fun _ => 0) 2 20 0
        (fun _ => 0) (fun _ => 0) (fun _ => 0)).sdis 0 =
      (Current.calculate_spectrals_c (fun _ => 0) 2
        ((fun j : ℕ => (j : ℝ)) 1 - (fun j : ℕ => (j : ℝ)) 0) 20 0
        (fun _ => 0) (fun _ => 0) (fun _ => 0)).sdis 0 :=
  c8_legacy_matches_current (fun j : ℕ => (j : ℝ)) (fun _ => 0) 2 20 0
    (fun _ => 0) (fun _ => 0) (fun _ => 0) (by norm_num) (by norm_num)
    (by norm_num) 0 (by decide)

/-- Witness for C9 on the single pair `(3, 1)`, `fc = 3`, `bandwidth = 20`. -/
theorem c9_witness :
    konno_ohmachi_c (fun _ => 1) (fun _ => 3) 1 (fun _ => 3) (fun _ => none) 1 20 0 =
      some 1 :=
  c9_flat_spectrum (fun _ => 1) (fun _ => 3) 1 (fun _ => 3) (fun _ => none) 1 20 0
    (by decide) (fun _ _ => rfl) (by norm_num)
    (by rw [show (fun _ => (3 : ℝ)) 0 = 3 from rfl, koAccum_demo]; norm_num)

/-- Witness for C10 on the single pair `(3, 1)` with bounds `m = M = 1`. -/
theorem c10_witness :
    (∀ j, j < 1 → inWindow 20 ((fun _ => (3 : ℝ)) 0) ((fun _ => (3 : ℝ)) j) →
      0 ≤ koWeight 20 ((fun _ => (3 : ℝ)) 0) ((fun _ => (3 : ℝ)) j) ∧
      koWeight 20 ((fun _ => (3 : ℝ)) 0) ((fun _ => (3 : ℝ)) j) ≤ 1) ∧
    (∃ v, konno_ohmachi_c (fun _ => 1) (fun _ => 3) 1 (fun _ => 3) (fun _ => none)
        1 20 0 = some v ∧ (1 : ℝ) ≤ v ∧ v ≤ 1) :=
  c10_weighted_average_bounds (fun _ => 1) (fun _ => 3) 1 (fun _ => 3)
    (fun _ => none) 1 20 1 1 0 (by decide) (by norm_num) (by norm_num)
    (fun _ _ _ => ⟨le_refl 1, le_refl 1⟩)
    (by rw [show (fun _ => (3 : ℝ)) 0 = 3 from rfl, koAccum_demo]; norm_num)

end GMP
